import Mathlib

/-
  Verification of the vecmap repository: a value-array-backed map (`NewMap`)
  whose key-to-position translation is delegated to immutable, shared key
  indices (`KeysInner` behind `SharedKeys`), interned by a global key store
  (`StdKeyStore`).

  Rust `HashMap<K, usize>` values are modelled as association lists with
  unique keys built by last-writer-wins insertion (`alInsert` / `alOfList`),
  matching `HashMap`'s `FromIterator` semantics.  `Arc<KeysInner<K>>`
  pointers are modelled by an explicit heap of nodes addressed by natural
  number ids inside a global state `GState`; pointer identity
  (`Arc::as_ptr` equality, used by `PartialEq for SharedKeys`) is equality
  of node ids, and a fresh `Arc` allocation appends a node to the heap.
-/

namespace VecMap

universe u v

/-- Association-list lookup: first entry whose key matches
(`HashMap::get`, on lists whose keys are unique). -/
def alGet {α : Type u} {β : Type v} [DecidableEq α] : List (α × β) → α → Option β
  | [], _ => none
  | p :: l, a => if p.1 = a then some p.2 else alGet l a

/-- Association-list insertion: replace in place if the key is present,
append otherwise (`HashMap::insert`, last writer wins). -/
def alInsert {α : Type u} {β : Type v} [DecidableEq α] : List (α × β) → α → β → List (α × β)
  | [], a, b => [(a, b)]
  | p :: l, a, b => if p.1 = a then (a, b) :: l else p :: alInsert l a b

/-- Collect a sequence of pairs into a map, later pairs overwriting earlier
ones (`HashMap::from_iter`). -/
def alOfList {α : Type u} {β : Type v} [DecidableEq α] (l : List (α × β)) : List (α × β) :=
  l.foldl (fun acc p => alInsert acc p.1 p.2) []

/-- `Iterator::max` over a list of naturals. -/
def maxNat? : List Nat → Option Nat
  | [] => none
  | n :: l => match maxNat? l with
    | none => some n
    | some m => some (max n m)

/-- `indices.values().max().map(|i| i + 1).unwrap_or(0)`: one past the
largest position in an index (0 for an empty index). -/
def posBound {α : Type u} (ind : List (α × Nat)) : Nat :=
  match maxNat? (ind.map Prod.snd) with
  | some m => m + 1
  | none => 0

/-- `KeysInner<K>`: the key-to-position map plus the cache of one-key
extensions (`inserts : DashMap<K, SharedKeys<K>>`); the cache stores heap
ids of the extension nodes. -/
structure KeysInner (K : Type u) where
  indices : List (K × Nat)
  inserts : List (K × Nat)
deriving DecidableEq

/-- The global state: the heap of `Arc<KeysInner>` allocations (node id =
list position) and the `StdKeyStore` cache from key sequences to node ids. -/
structure GState (K : Type u) where
  heap : List (KeysInner K)
  store : List (List K × Nat)
deriving DecidableEq

/-- The key-to-position map of the node with id `sid`
(`SharedKeys::indices`). -/
def idxOfNode {K : Type u} (st : GState K) (sid : Nat) : List (K × Nat) :=
  (st.heap.getD sid ⟨[], []⟩).indices

/-- The extension cache of the node with id `sid`. -/
def insOfNode {K : Type u} (st : GState K) (sid : Nat) : List (K × Nat) :=
  (st.heap.getD sid ⟨[], []⟩).inserts

/-- `KeysInner::insert` (= `SharedKeys::insert`) at node `sid`: return the
cached extension for `key` if one exists; otherwise build a new node whose
indices are the current ones extended by `key` at position
`posBound`, cache it under `key`, and return its id. -/
def keysInsert {K : Type u} [DecidableEq K] (st : GState K) (sid : Nat) (key : K) :
    GState K × Nat :=
  match alGet (insOfNode st sid) key with
  | some nid => (st, nid)
  | none =>
    let ind := idxOfNode st sid
    let pos := posBound ind
    let newNode : KeysInner K := ⟨alOfList (ind ++ [(key, pos)]), []⟩
    let nid := st.heap.length
    ({ heap := (st.heap.set sid ⟨ind, alInsert (insOfNode st sid) key nid⟩) ++ [newNode],
       store := st.store }, nid)

/-- `KeysInner::from_iter<K>`: enumerate the key sequence and collect
`(key, index)` pairs into a map (duplicate keys: the last occurrence wins). -/
def buildIndices {K : Type u} [DecidableEq K] (keys : List K) : List (K × Nat) :=
  alOfList (keys.enum.map (fun p => (p.2, p.1)))

/-- `StdKeyStore::get`: return the node cached for this exact key sequence,
or build a fresh node from the sequence and cache it. -/
def storeGet {K : Type u} [DecidableEq K] (st : GState K) (keys : List K) :
    GState K × Nat :=
  match alGet st.store keys with
  | some nid => (st, nid)
  | none =>
    let node : KeysInner K := ⟨buildIndices keys, []⟩
    let nid := st.heap.length
    ({ heap := st.heap ++ [node], store := alInsert st.store keys nid }, nid)

/-- `NewMap<K, V>`: a handle to a shared key index (`keysId`, the heap id
the `SharedKeys` field points at), the positional array of optional
values, and the occupied-slot count. -/
structure NewMap (V : Type v) where
  keysId : Nat
  values : List (Option V)
  count : Nat
deriving DecidableEq

/-- The key-to-position map reachable through the map's current index
handle (`self.keys.indices()`). -/
def mapIndices {K : Type u} {V : Type v} (st : GState K) (m : NewMap V) : List (K × Nat) :=
  idxOfNode st m.keysId

/-- `NewMap::get`: translate the key to a position through the index, then
read that slot. -/
def mGet {K : Type u} {V : Type v} [DecidableEq K] (st : GState K) (m : NewMap V) (k : K) :
    Option V :=
  (alGet (mapIndices st m) k).bind (fun i => (m.values.get? i).bind id)

/-- `NewMap::insert`: overwrite the slot when the key has a known position
(incrementing `count` when the slot was empty); otherwise swap the index
handle for the extension containing the key, push the value, and increment
`count`.  Returns (new global state, new map, returned old value). -/
def mInsert {K : Type u} {V : Type v} [DecidableEq K] (st : GState K) (m : NewMap V)
    (k : K) (v : V) : GState K × NewMap V × Option V :=
  match alGet (mapIndices st m) k with
  | some i =>
    match (m.values.get? i).bind id with
    | some old => (st, { m with values := m.values.set i (some v) }, some old)
    | none => (st, { m with values := m.values.set i (some v), count := m.count + 1 }, none)
  | none =>
    let r := keysInsert st m.keysId k
    (r.1, { keysId := r.2, values := m.values ++ [some v], count := m.count + 1 }, none)

/-- `NewMap::remove`: take the value out of the key's slot, decrementing
`count` when the slot held one; the index handle is never touched. -/
def mRemove {K : Type u} {V : Type v} [DecidableEq K] (st : GState K) (m : NewMap V)
    (k : K) : NewMap V × Option V :=
  match alGet (mapIndices st m) k with
  | none => (m, none)
  | some i =>
    match (m.values.get? i).bind id with
    | none => (m, none)
    | some old => ({ m with values := m.values.set i none, count := m.count - 1 }, some old)

/-- `NewMap::from_iter`: split the pairs into a key sequence and a value
array, fetch or build the index for the key sequence from the store, and
set `count` to the length of the value array. -/
def mFromIter {K : Type u} {V : Type v} [DecidableEq K] (st : GState K)
    (pairs : List (K × V)) : GState K × NewMap V :=
  let keys := pairs.map Prod.fst
  let vals := pairs.map (fun p => some p.2)
  let r := storeGet st keys
  (r.1, { keysId := r.2, values := vals, count := vals.length })

/-- `NewMap::default` / `NewMap::new`: empty value array, count 0, index
fetched from the store for the empty key sequence. -/
def mNew {K : Type u} {V : Type v} [DecidableEq K] (st : GState K) :
    GState K × NewMap V :=
  let r := storeGet st ([] : List K)
  (r.1, { keysId := r.2, values := [], count := 0 })

/-- The pairs produced by `NewMap::iter`: one `(key, value)` pair per index
entry whose slot is occupied, holes skipped. -/
def mContents {K : Type u} {V : Type v} [DecidableEq K] (st : GState K) (m : NewMap V) :
    List (K × V) :=
  (mapIndices st m).filterMap
    (fun p => ((m.values.get? p.2).bind id).map (fun v => (p.1, v)))

/-! ### Key-uniqueness and position predicates -/

/-- Unique keys: the key list of an association list has no duplicates. -/
def UK {α : Type u} {β : Type v} (l : List (α × β)) : Prop :=
  (l.map Prod.fst).Nodup

/-- Positions are injective on keys: two entries with equal positions have
equal keys. -/
def PosInj {α : Type u} (ind : List (α × Nat)) : Prop :=
  ∀ p ∈ ind, ∀ q ∈ ind, p.2 = q.2 → p.1 = q.1

instance {α : Type u} {β : Type v} [DecidableEq α] (l : List (α × β)) :
    Decidable (UK l) := by
  unfold UK; infer_instance

instance {α : Type u} [DecidableEq α] (ind : List (α × Nat)) :
    Decidable (PosInj ind) := by
  unfold PosInj; infer_instance

/-! ### Well-formedness invariants -/

/-- Per-node invariant: unique keys, positions injective on keys, unique
cache keys, and every cached extension entry holds a key absent from the
base and points to a live node whose indices are exactly the base indices
extended by that key at the next free position. -/
def NodeWF {K : Type u} [DecidableEq K] (st : GState K) (node : KeysInner K) : Prop :=
  UK node.indices ∧ PosInj node.indices ∧ UK node.inserts ∧
  ∀ e ∈ node.inserts,
    alGet node.indices e.1 = none ∧ e.2 < st.heap.length ∧
    (st.heap.getD e.2 ⟨[], []⟩).indices
      = alInsert node.indices e.1 (posBound node.indices)

/-- Every node of the heap is well formed. -/
def HeapWF {K : Type u} [DecidableEq K] (st : GState K) : Prop :=
  ∀ node ∈ st.heap, NodeWF st node

/-- Map invariant: the heap is well formed, the index handle is live, and
the value array is exactly one longer than the largest position of the
current index (so every position is in bounds). -/
def MapInv {K : Type u} {V : Type v} [DecidableEq K] (st : GState K) (m : NewMap V) :
    Prop :=
  HeapWF st ∧ m.keysId < st.heap.length ∧
  m.values.length = posBound (mapIndices st m)

instance {K : Type u} [DecidableEq K] (st : GState K) (node : KeysInner K) :
    Decidable (NodeWF st node) := by
  unfold NodeWF; infer_instance

instance {K : Type u} [DecidableEq K] (st : GState K) : Decidable (HeapWF st) := by
  unfold HeapWF; infer_instance

instance {K : Type u} {V : Type v} [DecidableEq K] (st : GState K) (m : NewMap V) :
    Decidable (MapInv st m) := by
  unfold MapInv; infer_instance


/-- The reference map of the spec's equivalence property, modelled from the
spec's words: an abstract associative map observed through `get`, with
standard insert/remove returning the previous value. -/
def refInsertFun {K : Type u} {V : Type v} [DecidableEq K] (r : K → Option V) (k : K)
    (v : V) : (K → Option V) × Option V :=
  (fun j => if j = k then some v else r j, r k)

/-- Reference removal: clears the key, returns the previous value. -/
def refRemoveFun {K : Type u} {V : Type v} [DecidableEq K] (r : K → Option V) (k : K) :
    (K → Option V) × Option V :=
  (fun j => if j = k then none else r j, r k)

/-- Reference bulk construction: later pairs overwrite earlier ones. -/
def refFromPairs {K : Type u} {V : Type v} [DecidableEq K] (pairs : List (K × V)) :
    K → Option V :=
  pairs.foldl (fun r p => fun j => if j = p.1 then some p.2 else r j) (fun _ => none)

/-- One operation of the spec's operation-sequence equivalence property. -/
inductive Op (K : Type u) (V : Type v) where
  | get (k : K)
  | insert (k : K) (v : V)
  | remove (k : K)

/-- Run a sequence of operations on a `NewMap`, collecting each step's
output (the `get` result, or the value returned by `insert`/`remove`). -/
def runNew {K : Type u} {V : Type v} [DecidableEq K] :
    GState K → NewMap V → List (Op K V) → GState K × NewMap V × List (Option V)
  | st, m, [] => (st, m, [])
  | st, m, Op.get k :: ops =>
    let rest := runNew st m ops
    (rest.1, rest.2.1, mGet st m k :: rest.2.2)
  | st, m, Op.insert k v :: ops =>
    let s := mInsert st m k v
    let rest := runNew s.1 s.2.1 ops
    (rest.1, rest.2.1, s.2.2 :: rest.2.2)
  | st, m, Op.remove k :: ops =>
    let s := mRemove st m k
    let rest := runNew st s.1 ops
    (rest.1, rest.2.1, s.2 :: rest.2.2)

/-- Run the same operations on the reference map, collecting outputs. -/
def runRef {K : Type u} {V : Type v} [DecidableEq K] :
    (K → Option V) → List (Op K V) → (K → Option V) × List (Option V)
  | r, [] => (r, [])
  | r, Op.get k :: ops =>
    let rest := runRef r ops
    (rest.1, r k :: rest.2)
  | r, Op.insert k v :: ops =>
    let s := refInsertFun r k v
    let rest := runRef s.1 ops
    (rest.1, s.2 :: rest.2)
  | r, Op.remove k :: ops =>
    let s := refRemoveFun r k
    let rest := runRef s.1 ops
    (rest.1, s.2 :: rest.2)

/-- Map states reachable through the public operations, starting from a
fresh process (empty key store): `new`/`default` or `from_iterator`
construction followed by any sequence of `insert` and `remove` calls
(`get` and iteration do not change state). -/
inductive Reach {K : Type u} {V : Type v} [DecidableEq K] : GState K → NewMap V → Prop where
  | new : Reach (mNew (V := V) (⟨[], []⟩ : GState K)).1 (mNew (⟨[], []⟩ : GState K)).2
  | fromIter (pairs : List (K × V)) :
      Reach (mFromIter (⟨[], []⟩ : GState K) pairs).1 (mFromIter (⟨[], []⟩ : GState K) pairs).2
  | insertStep {st : GState K} {m : NewMap V} (k : K) (v : V) : Reach st m →
      Reach (mInsert st m k v).1 (mInsert st m k v).2.1
  | removeStep {st : GState K} {m : NewMap V} (k : K) : Reach st m →
      Reach st (mRemove st m k).1

/-- The set of positions of an index is exactly `0..n` (no gaps). -/
def Dense {α : Type u} (ind : List (α × Nat)) : Prop :=
  ∀ p, p ∈ ind.map Prod.snd ↔ p < ind.length

/-- A chain of one-key extensions: each key is extended onto the index
returned by the previous step. -/
def extendChain {K : Type u} [DecidableEq K] : GState K → Nat → List K → GState K × Nat
  | st, sid, [] => (st, sid)
  | st, sid, k :: ks => extendChain (keysInsert st sid k).1 (keysInsert st sid k).2 ks

/-- Every key of the chain is new at its step: absent from the index it is
extended onto (an extension in the spec's sense adds a key not already
present). -/
def freshChain {K : Type u} [DecidableEq K] : GState K → Nat → List K → Prop
  | _, _, [] => True
  | st, sid, k :: ks =>
    alGet (idxOfNode st sid) k = none ∧
    freshChain (keysInsert st sid k).1 (keysInsert st sid k).2 ks

instance instDecFreshChain {K : Type u} [DecidableEq K] :
    (st : GState K) → (sid : Nat) → (ks : List K) → Decidable (freshChain st sid ks)
  | _, _, [] => isTrue trivial
  | st, sid, k :: ks =>
    have : Decidable (freshChain (keysInsert st sid k).1 (keysInsert st sid k).2 ks) :=
      instDecFreshChain _ _ ks
    by unfold freshChain; infer_instance

/-- Two association lists hold the same entries (identical key-to-position
content, regardless of identity). -/
def sameContent {α : Type u} {β : Type v} (a b : List (α × β)) : Prop :=
  (∀ p ∈ a, p ∈ b) ∧ (∀ p ∈ b, p ∈ a)

instance {α : Type u} {β : Type v} [DecidableEq α] [DecidableEq β]
    (a b : List (α × β)) : Decidable (sameContent a b) := by
  unfold sameContent; infer_instance

/-! ### Lemmas -/

theorem alGet_alInsert_self {α : Type u} {β : Type v} [DecidableEq α]
    (l : List (α × β)) (a : α) (b : β) : alGet (alInsert l a b) a = some b := by
  induction l with
  | nil => simp [alInsert, alGet]
  | cons p l ih =>
    by_cases h : p.1 = a
    · simp [alInsert, h, alGet]
    · simp [alInsert, h, alGet, ih]

theorem alGet_alInsert_ne {α : Type u} {β : Type v} [DecidableEq α]
    (l : List (α × β)) (a c : α) (b : β) (h : c ≠ a) :
    alGet (alInsert l a b) c = alGet l c := by
  induction l with
  | nil => simp [alInsert, alGet, Ne.symm h]
  | cons p l ih =>
    by_cases hp : p.1 = a
    · rw [show alInsert (p :: l) a b = (a, b) :: l by simp [alInsert, hp]]
      have h1 : ¬ (a = c) := Ne.symm h
      have h2 : ¬ (p.1 = c) := by rw [hp]; exact h1
      simp [alGet, h1, h2]
    · rw [show alInsert (p :: l) a b = p :: alInsert l a b by simp [alInsert, hp]]
      by_cases hc : p.1 = c <;> simp [alGet, hc, ih]

theorem mem_alInsert {α : Type u} {β : Type v} [DecidableEq α]
    {l : List (α × β)} {a : α} {b : β} {p : α × β} (hp : p ∈ alInsert l a b) :
    p = (a, b) ∨ p ∈ l := by
  induction l with
  | nil => simp [alInsert] at hp; simp [hp]
  | cons q l ih =>
    by_cases hq : q.1 = a
    · simp only [alInsert, if_pos hq, List.mem_cons] at hp
      rcases hp with hp | hp
      · exact Or.inl hp
      · exact Or.inr (List.mem_cons_of_mem _ hp)
    · simp only [alInsert, if_neg hq, List.mem_cons] at hp
      rcases hp with hp | hp
      · exact Or.inr (hp ▸ List.mem_cons_self _ _)
      · rcases ih hp with h | h
        · exact Or.inl h
        · exact Or.inr (List.mem_cons_of_mem _ h)

theorem alInsert_of_alGet_none {α : Type u} {β : Type v} [DecidableEq α]
    {l : List (α × β)} {a : α} (b : β) (h : alGet l a = none) :
    alInsert l a b = l ++ [(a, b)] := by
  induction l with
  | nil => rfl
  | cons q l ih =>
    by_cases hq : q.1 = a
    · simp [alGet, hq] at h
    · simp only [alGet, if_neg hq] at h
      simp [alInsert, hq, ih h]

theorem alGet_eq_none_iff {α : Type u} {β : Type v} [DecidableEq α]
    {l : List (α × β)} {a : α} : alGet l a = none ↔ a ∉ l.map Prod.fst := by
  induction l with
  | nil => simp [alGet]
  | cons q l ih =>
    by_cases hq : q.1 = a
    · simp [alGet, hq]
    · simp [alGet, hq, ih, Ne.symm hq]

theorem mem_of_alGet_eq_some {α : Type u} {β : Type v} [DecidableEq α]
    {l : List (α × β)} {a : α} {b : β} (h : alGet l a = some b) : (a, b) ∈ l := by
  induction l with
  | nil => simp [alGet] at h
  | cons q l ih =>
    by_cases hq : q.1 = a
    · simp only [alGet, if_pos hq, Option.some.injEq] at h
      have : q = (a, b) := Prod.ext hq h
      rw [this]
      exact List.mem_cons_self _ _
    · simp only [alGet, if_neg hq] at h
      exact List.mem_cons_of_mem _ (ih h)

theorem alGet_of_mem {α : Type u} {β : Type v} [DecidableEq α]
    {l : List (α × β)} (hUK : UK l) {a : α} {b : β} (h : (a, b) ∈ l) :
    alGet l a = some b := by
  induction l with
  | nil => simp at h
  | cons q l ih =>
    rcases List.mem_cons.mp h with h | h
    · rw [← h]; simp [alGet]
    · have ha : a ∈ l.map Prod.fst := List.mem_map.mpr ⟨(a, b), h, rfl⟩
      have hUK' : (q.1 :: l.map Prod.fst).Nodup := by
        have h2 := hUK
        unfold UK at h2
        rwa [List.map_cons] at h2
      have hq : q.1 ≠ a := fun hc => (List.nodup_cons.mp hUK').1 (hc ▸ ha)
      have hUKl : UK l := (List.nodup_cons.mp hUK').2
      simp [alGet, hq, ih hUKl h]

theorem mem_keys_alInsert {α : Type u} {β : Type v} [DecidableEq α]
    {l : List (α × β)} {a x : α} {b : β}
    (h : x ∈ (alInsert l a b).map Prod.fst) : x = a ∨ x ∈ l.map Prod.fst := by
  rcases List.mem_map.mp h with ⟨p, hp, hx⟩
  rcases mem_alInsert hp with h1 | h1
  · left; rw [← hx, h1]
  · right; exact List.mem_map.mpr ⟨p, h1, hx⟩

theorem UK_alInsert {α : Type u} {β : Type v} [DecidableEq α]
    {l : List (α × β)} {a : α} {b : β} (h : UK l) : UK (alInsert l a b) := by
  induction l with
  | nil => simp [alInsert, UK]
  | cons q l ih =>
    have h' : (q.1 :: l.map Prod.fst).Nodup := by
      have h2 := h
      unfold UK at h2
      rwa [List.map_cons] at h2
    have hq1 : q.1 ∉ l.map Prod.fst := (List.nodup_cons.mp h').1
    have hUKl : UK l := (List.nodup_cons.mp h').2
    by_cases hq : q.1 = a
    · rw [show alInsert (q :: l) a b = (a, b) :: l by simp [alInsert, hq]]
      unfold UK
      rw [List.map_cons, List.nodup_cons]
      exact ⟨hq ▸ hq1, hUKl⟩
    · rw [show alInsert (q :: l) a b = q :: alInsert l a b by simp [alInsert, hq]]
      unfold UK
      rw [List.map_cons, List.nodup_cons]
      refine ⟨fun hc => ?_, ih hUKl⟩
      rcases mem_keys_alInsert hc with h1 | h1
      · exact hq h1
      · exact hq1 h1

theorem alOfList_append_single {α : Type u} {β : Type v} [DecidableEq α]
    (l : List (α × β)) (p : α × β) :
    alOfList (l ++ [p]) = alInsert (alOfList l) p.1 p.2 := by
  simp [alOfList, List.foldl_append]

theorem UK_foldl_alInsert {α : Type u} {β : Type v} [DecidableEq α]
    (l : List (α × β)) :
    ∀ acc, UK acc → UK (l.foldl (fun acc p => alInsert acc p.1 p.2) acc) := by
  induction l with
  | nil => intro acc h; simpa using h
  | cons q l ih =>
    intro acc h
    simpa using ih (alInsert acc q.1 q.2) (UK_alInsert h)

theorem UK_alOfList {α : Type u} {β : Type v} [DecidableEq α]
    (l : List (α × β)) : UK (alOfList l) :=
  UK_foldl_alInsert l [] (by simp [UK])

theorem alOfList_eq_self {α : Type u} {β : Type v} [DecidableEq α]
    {l : List (α × β)} (h : UK l) : alOfList l = l := by
  induction l using List.reverseRecOn with
  | nil => rfl
  | append_singleton l p ih =>
    have hkeys : ((l.map Prod.fst) ++ [p.1]).Nodup := by
      have h2 := h
      unfold UK at h2
      rwa [List.map_append, List.map_singleton] at h2
    have hsplit := List.nodup_append.mp hkeys
    have hUKl : UK l := hsplit.1
    have hpn : p.1 ∉ l.map Prod.fst := fun hc => hsplit.2.2 hc (List.mem_singleton.mpr rfl)
    rw [alOfList_append_single, ih hUKl,
      alInsert_of_alGet_none _ (alGet_eq_none_iff.mpr hpn)]

/-! ### posBound lemmas -/

theorem posBound_nil {α : Type u} : posBound ([] : List (α × Nat)) = 0 := rfl

theorem posBound_cons {α : Type u} (p : α × Nat) (l : List (α × Nat)) :
    posBound (p :: l) = max (p.2 + 1) (posBound l) := by
  unfold posBound
  rw [List.map_cons]
  cases h : maxNat? (l.map Prod.snd) with
  | none => simp [maxNat?, h]
  | some m => simp [maxNat?, h]; omega

theorem lt_posBound_of_mem {α : Type u} {l : List (α × Nat)} {p : α × Nat}
    (h : p ∈ l) : p.2 < posBound l := by
  induction l with
  | nil => simp at h
  | cons q l ih =>
    rw [posBound_cons]
    rcases List.mem_cons.mp h with h1 | h1
    · rw [h1]; omega
    · have := ih h1; omega

theorem alGet_lt_posBound {α : Type u} [DecidableEq α] {l : List (α × Nat)}
    {a : α} {i : Nat} (h : alGet l a = some i) : i < posBound l :=
  lt_posBound_of_mem (mem_of_alGet_eq_some h)

theorem posBound_alInsert {α : Type u} [DecidableEq α] {l : List (α × Nat)}
    {a : α} {n : Nat} (h : posBound l ≤ n) : posBound (alInsert l a n) = n + 1 := by
  induction l with
  | nil => simp [alInsert, posBound_cons, posBound_nil]
  | cons q l ih =>
    rw [posBound_cons] at h
    by_cases hq : q.1 = a
    · rw [show alInsert (q :: l) a n = (a, n) :: l by simp [alInsert, hq], posBound_cons]
      simp only
      omega
    · rw [show alInsert (q :: l) a n = q :: alInsert l a n by simp [alInsert, hq],
        posBound_cons, ih (by omega)]
      omega

theorem PosInj_alInsert {α : Type u} [DecidableEq α] {l : List (α × Nat)}
    {a : α} {n : Nat} (hinj : PosInj l) (hn : posBound l ≤ n) :
    PosInj (alInsert l a n) := by
  intro p hp q hq heq
  rcases mem_alInsert hp with h1 | h1 <;> rcases mem_alInsert hq with h2 | h2
  · rw [h1, h2]
  · exfalso
    have := lt_posBound_of_mem h2
    rw [h1] at heq
    simp only at heq
    omega
  · exfalso
    have := lt_posBound_of_mem h1
    rw [h2] at heq
    simp only at heq
    omega
  · exact hinj p h1 q h2 heq

/-! ### List access helpers -/

theorem getD_append_lt {α : Type u} {l l' : List α} {d : α} {i : Nat}
    (h : i < l.length) : (l ++ l').getD i d = l.getD i d := by
  rw [List.getD_eq_get?, List.getD_eq_get?, List.get?_append h]

theorem getD_append_length {α : Type u} (l : List α) (a d : α) :
    (l ++ [a]).getD l.length d = a := by
  rw [List.getD_eq_get?, List.get?_concat_length]
  rfl

theorem getD_set_self {α : Type u} {l : List α} {a d : α} {i : Nat}
    (h : i < l.length) : (l.set i a).getD i d = a := by
  rw [List.getD_eq_get?, List.get?_set_eq_of_lt _ h]
  rfl

theorem getD_set_ne {α : Type u} {l : List α} {a d : α} {i j : Nat}
    (h : i ≠ j) : (l.set i a).getD j d = l.getD j d := by
  rw [List.getD_eq_get?, List.getD_eq_get?, List.get?_set_ne _ _ h]

theorem getD_mem_of_lt {α : Type u} {l : List α} {d : α} {i : Nat}
    (h : i < l.length) : l.getD i d ∈ l := by
  rw [List.getD_eq_get?]
  cases hg : l.get? i with
  | none => exact absurd (List.get?_eq_none.mp hg) (by omega)
  | some a => simpa using List.get?_mem hg
/-- Characterization of `KeysInner::insert` on a well-formed heap, for a
key absent from the base node's indices: the result is a well-formed
larger heap; the returned node's indices are the base's extended by the
key at the next free position; every live node's indices are untouched;
the store is untouched; and afterwards the extension is cached under the
key at the base node. -/
theorem keysInsert_spec {K : Type u} [DecidableEq K] {st : GState K} {sid : Nat} {k : K}
    (hWF : HeapWF st) (hsid : sid < st.heap.length)
    (habs : alGet (idxOfNode st sid) k = none) :
    HeapWF (keysInsert st sid k).1 ∧
    (keysInsert st sid k).2 < (keysInsert st sid k).1.heap.length ∧
    st.heap.length ≤ (keysInsert st sid k).1.heap.length ∧
    idxOfNode (keysInsert st sid k).1 (keysInsert st sid k).2
      = alInsert (idxOfNode st sid) k (posBound (idxOfNode st sid)) ∧
    (∀ i, i < st.heap.length →
      idxOfNode (keysInsert st sid k).1 i = idxOfNode st i) ∧
    (keysInsert st sid k).1.store = st.store ∧
    alGet (insOfNode (keysInsert st sid k).1 sid) k
      = some (keysInsert st sid k).2 := by
  have hnodeWF : NodeWF st (st.heap.getD sid ⟨[], []⟩) :=
    hWF _ (getD_mem_of_lt hsid)
  cases hc : alGet (insOfNode st sid) k with
  | some nid =>
    have hmem : (k, nid) ∈ (st.heap.getD sid ⟨[], []⟩).inserts := mem_of_alGet_eq_some hc
    have hcond := hnodeWF.2.2.2 _ hmem
    have hrun : keysInsert st sid k = (st, nid) := by
      unfold keysInsert
      rw [hc]
    rw [hrun]
    exact ⟨hWF, hcond.2.1, le_refl _, hcond.2.2, fun i _ => rfl, rfl, hc⟩
  | none =>
    have hUKind : UK (idxOfNode st sid) := hnodeWF.1
    have hPI : PosInj (idxOfNode st sid) := hnodeWF.2.1
    have hUKins : UK (insOfNode st sid) := hnodeWF.2.2.1
    have hconds : ∀ e ∈ insOfNode st sid,
        alGet (idxOfNode st sid) e.1 = none ∧ e.2 < st.heap.length ∧
        (st.heap.getD e.2 ⟨[], []⟩).indices
          = alInsert (idxOfNode st sid) e.1 (posBound (idxOfNode st sid)) :=
      hnodeWF.2.2.2
    have hrun : keysInsert st sid k =
        (⟨(st.heap.set sid
            ⟨idxOfNode st sid, alInsert (insOfNode st sid) k st.heap.length⟩)
            ++ [⟨alOfList (idxOfNode st sid
                  ++ [(k, posBound (idxOfNode st sid))]), []⟩],
           st.store⟩, st.heap.length) := by
      unfold keysInsert
      rw [hc]
    rw [hrun]
    have hlen : ((st.heap.set sid
        ⟨idxOfNode st sid, alInsert (insOfNode st sid) k st.heap.length⟩)
        ++ [(⟨alOfList (idxOfNode st sid ++ [(k, posBound (idxOfNode st sid))]), []⟩
          : KeysInner K)]).length = st.heap.length + 1 := by
      rw [List.length_append, List.length_set]
      rfl
    have hnewIdx : alOfList (idxOfNode st sid ++ [(k, posBound (idxOfNode st sid))])
        = alInsert (idxOfNode st sid) k (posBound (idxOfNode st sid)) := by
      rw [alOfList_append_single]
      show alInsert (alOfList (idxOfNode st sid)) k (posBound (idxOfNode st sid))
        = alInsert (idxOfNode st sid) k (posBound (idxOfNode st sid))
      rw [alOfList_eq_self hUKind]
    have hpres : ∀ i, i < st.heap.length →
        (((st.heap.set sid
            ⟨idxOfNode st sid, alInsert (insOfNode st sid) k st.heap.length⟩)
            ++ [(⟨alOfList (idxOfNode st sid
                  ++ [(k, posBound (idxOfNode st sid))]), []⟩ : KeysInner K)]).getD i
            ⟨[], []⟩).indices
          = (st.heap.getD i ⟨[], []⟩).indices := by
      intro i hi
      rw [getD_append_lt (by rw [List.length_set]; exact hi)]
      by_cases hieq : sid = i
      · subst hieq
        rw [getD_set_self hsid]
        rfl
      · rw [getD_set_ne hieq]
    have hgetnew : (((st.heap.set sid
        ⟨idxOfNode st sid, alInsert (insOfNode st sid) k st.heap.length⟩)
        ++ [(⟨alOfList (idxOfNode st sid
              ++ [(k, posBound (idxOfNode st sid))]), []⟩ : KeysInner K)]).getD
          st.heap.length ⟨[], []⟩)
        = ⟨alOfList (idxOfNode st sid ++ [(k, posBound (idxOfNode st sid))]), []⟩ := by
      have hbase := getD_append_length
        (st.heap.set sid
          ⟨idxOfNode st sid, alInsert (insOfNode st sid) k st.heap.length⟩)
        (⟨alOfList (idxOfNode st sid
            ++ [(k, posBound (idxOfNode st sid))]), []⟩ : KeysInner K)
        (⟨[], []⟩ : KeysInner K)
      rwa [List.length_set] at hbase
    have hgetsid : (((st.heap.set sid
        ⟨idxOfNode st sid, alInsert (insOfNode st sid) k st.heap.length⟩)
        ++ [(⟨alOfList (idxOfNode st sid
              ++ [(k, posBound (idxOfNode st sid))]), []⟩ : KeysInner K)]).getD sid
          ⟨[], []⟩)
        = ⟨idxOfNode st sid, alInsert (insOfNode st sid) k st.heap.length⟩ := by
      rw [getD_append_lt (by rw [List.length_set]; exact hsid)]
      exact getD_set_self hsid
    refine ⟨?_, ?_, ?_, ?_, ?_, rfl, ?_⟩
    · -- HeapWF of the new state
      intro x hx
      rcases List.mem_append.mp hx with hx1 | hx1
      · rcases List.mem_or_eq_of_mem_set hx1 with hx2 | hx2
        · -- an untouched old node
          have hold := hWF x hx2
          refine ⟨hold.1, hold.2.1, hold.2.2.1, fun e he => ?_⟩
          have hcondsx := hold.2.2.2 e he
          exact ⟨hcondsx.1, by simp only [hlen]; omega,
            by rw [hpres e.2 hcondsx.2.1]; exact hcondsx.2.2⟩
        · -- the rewritten base node
          subst hx2
          refine ⟨hUKind, hPI, UK_alInsert hUKins, fun e he => ?_⟩
          rcases mem_alInsert he with he1 | he1
          · subst he1
            refine ⟨habs, by simp only [hlen]; omega, ?_⟩
            simp only
            rw [hgetnew]
            simp only
            exact hnewIdx
          · have hcondse := hconds e he1
            refine ⟨hcondse.1, by simp only [hlen]; omega, ?_⟩
            simp only
            rw [hpres e.2 hcondse.2.1]
            exact hcondse.2.2
      · -- the freshly created extension node
        rw [List.mem_singleton.mp hx1]
        refine ⟨?_, ?_, by simp [UK], fun e he => by simp at he⟩
        · exact UK_alOfList _
        · simp only
          rw [hnewIdx]
          exact PosInj_alInsert hPI (le_refl _)
    · simp only [hlen]
      omega
    · simp only [hlen]
      omega
    · simp only [idxOfNode] at hgetnew hnewIdx ⊢
      rw [hgetnew]
      exact hnewIdx
    · intro i hi
      simp only [idxOfNode] at hpres ⊢
      exact hpres i hi
    · simp only [insOfNode, idxOfNode] at hgetsid ⊢
      rw [hgetsid]
      exact alGet_alInsert_self _ _ _

/-! ### buildIndices lemmas -/

theorem buildIndices_nil {K : Type u} [DecidableEq K] :
    buildIndices ([] : List K) = [] := rfl

theorem buildIndices_append_single {K : Type u} [DecidableEq K] (keys : List K) (k : K) :
    buildIndices (keys ++ [k]) = alInsert (buildIndices keys) k keys.length := by
  unfold buildIndices
  rw [show (keys ++ [k]).enum = keys.enum ++ [(keys.length, k)] by
    rw [List.enum_append]; rfl]
  rw [List.map_append]
  exact alOfList_append_single _ _

theorem vals_buildIndices_lt {K : Type u} [DecidableEq K] (keys : List K) :
    ∀ p ∈ buildIndices keys, p.2 < keys.length := by
  induction keys using List.reverseRecOn with
  | nil => intro p hp; simp [buildIndices_nil] at hp
  | append_singleton keys k ih =>
    intro p hp
    rw [buildIndices_append_single] at hp
    rw [List.length_append, List.length_singleton]
    rcases mem_alInsert hp with h | h
    · rw [h]; omega
    · have := ih p h; omega

theorem posBound_buildIndices {K : Type u} [DecidableEq K] (keys : List K) :
    posBound (buildIndices keys) = keys.length := by
  induction keys using List.reverseRecOn with
  | nil => rfl
  | append_singleton keys k ih =>
    rw [buildIndices_append_single, posBound_alInsert (le_of_eq ih),
      List.length_append, List.length_singleton]

theorem PosInj_buildIndices {K : Type u} [DecidableEq K] (keys : List K) :
    PosInj (buildIndices keys) := by
  induction keys using List.reverseRecOn with
  | nil => intro p hp; simp [buildIndices_nil] at hp
  | append_singleton keys k ih =>
    rw [buildIndices_append_single]
    exact PosInj_alInsert ih (le_of_eq (posBound_buildIndices keys))

theorem UK_buildIndices {K : Type u} [DecidableEq K] (keys : List K) :
    UK (buildIndices keys) :=
  UK_alOfList _

theorem keys_alInsert_iff {α : Type u} {β : Type v} [DecidableEq α]
    {l : List (α × β)} {a x : α} {b : β} :
    x ∈ (alInsert l a b).map Prod.fst ↔ x = a ∨ x ∈ l.map Prod.fst := by
  constructor
  · exact mem_keys_alInsert
  · intro h
    by_cases hx : x = a
    · subst hx
      exact List.mem_map.mpr ⟨(x, b), mem_of_alGet_eq_some (alGet_alInsert_self l x b), rfl⟩
    · rcases h with h | h
      · exact absurd h hx
      · have hne : alGet l x ≠ none := fun hc => (alGet_eq_none_iff.mp hc) h
        rcases Option.ne_none_iff_exists'.mp hne with ⟨v, hv⟩
        have : alGet (alInsert l a b) x = some v := by
          rw [alGet_alInsert_ne _ _ _ _ hx]; exact hv
        exact List.mem_map.mpr ⟨(x, v), mem_of_alGet_eq_some this, rfl⟩

theorem keys_buildIndices_iff {K : Type u} [DecidableEq K] (keys : List K) {x : K} :
    x ∈ (buildIndices keys).map Prod.fst ↔ x ∈ keys := by
  induction keys using List.reverseRecOn with
  | nil => simp [buildIndices_nil]
  | append_singleton keys k ih =>
    rw [buildIndices_append_single]
    rw [keys_alInsert_iff]
    simp only [List.mem_append, List.mem_singleton]
    rw [ih]
    tauto

theorem alGet_buildIndices_eq_none_iff {K : Type u} [DecidableEq K]
    {keys : List K} {x : K} : alGet (buildIndices keys) x = none ↔ x ∉ keys := by
  rw [alGet_eq_none_iff]
  exact not_congr (keys_buildIndices_iff keys)

/-! ### Density lemmas -/

theorem dense_nil {α : Type u} : Dense ([] : List (α × Nat)) := by
  intro p
  simp

theorem posBound_le {α : Type u} {l : List (α × Nat)} {n : Nat}
    (h : ∀ p ∈ l, p.2 < n) : posBound l ≤ n := by
  induction l with
  | nil => simp [posBound_nil]
  | cons q l ih =>
    rw [posBound_cons]
    have h1 := h q (List.mem_cons_self _ _)
    have h2 := ih (fun p hp => h p (List.mem_cons_of_mem _ hp))
    omega

theorem posBound_eq_of_dense {α : Type u} {ind : List (α × Nat)} (h : Dense ind) :
    posBound ind = ind.length := by
  have hle : posBound ind ≤ ind.length := by
    apply posBound_le
    intro p hp
    exact (h p.2).mp (List.mem_map.mpr ⟨p, hp, rfl⟩)
  cases hn : ind.length with
  | zero =>
    cases ind with
    | nil => rfl
    | cons q l => simp at hn
  | succ n =>
    have hmem : n ∈ ind.map Prod.snd := (h n).mpr (by omega)
    rcases List.mem_map.mp hmem with ⟨p, hp, hpn⟩
    have := lt_posBound_of_mem hp
    omega

theorem dense_extend {α : Type u} [DecidableEq α] {ind : List (α × Nat)} {k : α}
    (h : Dense ind) (hk : alGet ind k = none) :
    Dense (alInsert ind k (posBound ind)) := by
  rw [alInsert_of_alGet_none _ hk, posBound_eq_of_dense h]
  intro p
  rw [List.map_append, List.length_append]
  simp only [List.mem_append, List.map_cons, List.map_nil, List.mem_singleton,
    List.length_singleton]
  rw [h p]
  omega

theorem dense_buildIndices {K : Type u} [DecidableEq K] {keys : List K}
    (h : keys.Nodup) : Dense (buildIndices keys) := by
  induction keys using List.reverseRecOn with
  | nil => exact dense_nil
  | append_singleton keys k ih =>
    have hsplit := List.nodup_append.mp h
    have hk : k ∉ keys := fun hc => hsplit.2.2 hc (List.mem_singleton.mpr rfl)
    have hdense := ih hsplit.1
    have habs : alGet (buildIndices keys) k = none :=
      alGet_buildIndices_eq_none_iff.mpr hk
    rw [buildIndices_append_single,
      show keys.length = posBound (buildIndices keys) from
        (posBound_buildIndices keys).symm]
    exact dense_extend hdense habs

/-! ### storeGet and keysInsert unfoldings -/

theorem storeGet_cached {K : Type u} [DecidableEq K] {st : GState K} {keys : List K}
    {nid : Nat} (h : alGet st.store keys = some nid) : storeGet st keys = (st, nid) := by
  unfold storeGet
  rw [h]

theorem storeGet_fresh {K : Type u} [DecidableEq K] {st : GState K} {keys : List K}
    (h : alGet st.store keys = none) :
    storeGet st keys
      = (⟨st.heap ++ [⟨buildIndices keys, []⟩], alInsert st.store keys st.heap.length⟩,
         st.heap.length) := by
  unfold storeGet
  rw [h]

theorem keysInsert_cached {K : Type u} [DecidableEq K] {st : GState K} {sid nid : Nat}
    {k : K} (h : alGet (insOfNode st sid) k = some nid) :
    keysInsert st sid k = (st, nid) := by
  unfold keysInsert
  rw [h]

theorem storeGet_fresh_spec {K : Type u} [DecidableEq K] {st : GState K}
    {keys : List K} (hWF : HeapWF st) (h : alGet st.store keys = none) :
    HeapWF (storeGet st keys).1 ∧
    (storeGet st keys).2 < (storeGet st keys).1.heap.length ∧
    idxOfNode (storeGet st keys).1 (storeGet st keys).2 = buildIndices keys ∧
    insOfNode (storeGet st keys).1 (storeGet st keys).2 = [] ∧
    (∀ i, i < st.heap.length → idxOfNode (storeGet st keys).1 i = idxOfNode st i) ∧
    st.heap.length ≤ (storeGet st keys).1.heap.length := by
  rw [storeGet_fresh h]
  have hget : (st.heap ++ [(⟨buildIndices keys, []⟩ : KeysInner K)]).getD
      st.heap.length ⟨[], []⟩ = ⟨buildIndices keys, []⟩ :=
    getD_append_length _ _ _
  have hpres : ∀ i, i < st.heap.length →
      ((st.heap ++ [(⟨buildIndices keys, []⟩ : KeysInner K)]).getD i ⟨[], []⟩)
        = st.heap.getD i ⟨[], []⟩ := by
    intro i hi
    exact getD_append_lt hi
  refine ⟨?_, ?_, ?_, ?_, ?_, ?_⟩
  · intro x hx
    rcases List.mem_append.mp hx with hx1 | hx1
    · have hold := hWF x hx1
      refine ⟨hold.1, hold.2.1, hold.2.2.1, fun e he => ?_⟩
      have hce := hold.2.2.2 e he
      refine ⟨hce.1, ?_, ?_⟩
      · simp only [List.length_append, List.length_singleton]
        omega
      · simp only
        rw [hpres e.2 hce.2.1]
        exact hce.2.2
    · rw [List.mem_singleton.mp hx1]
      exact ⟨UK_buildIndices keys, PosInj_buildIndices keys, by simp [UK],
        fun e he => by simp at he⟩
  · simp only [List.length_append, List.length_singleton]
    omega
  · simp only [idxOfNode]
    rw [hget]
  · simp only [insOfNode]
    rw [hget]
  · intro i hi
    simp only [idxOfNode]
    rw [hpres i hi]
  · simp only [List.length_append, List.length_singleton]
    omega

/-! ### Map-level invariant helpers -/

theorem UK_mapIndices {K : Type u} {V : Type v} [DecidableEq K] {st : GState K}
    {m : NewMap V} (hInv : MapInv st m) : UK (mapIndices st m) :=
  (hInv.1 _ (getD_mem_of_lt hInv.2.1)).1

theorem PosInj_mapIndices {K : Type u} {V : Type v} [DecidableEq K] {st : GState K}
    {m : NewMap V} (hInv : MapInv st m) : PosInj (mapIndices st m) :=
  (hInv.1 _ (getD_mem_of_lt hInv.2.1)).2.1

theorem alGet_lt_length {K : Type u} {V : Type v} [DecidableEq K] {st : GState K}
    {m : NewMap V} {k : K} {i : Nat} (hInv : MapInv st m)
    (h : alGet (mapIndices st m) k = some i) : i < m.values.length := by
  rw [hInv.2.2]
  exact alGet_lt_posBound h

theorem alGet_inj_of_mapIndices {K : Type u} {V : Type v} [DecidableEq K]
    {st : GState K} {m : NewMap V} {j k : K} {i : Nat} (hInv : MapInv st m)
    (hj : alGet (mapIndices st m) j = some i)
    (hk : alGet (mapIndices st m) k = some i) : j = k :=
  PosInj_mapIndices hInv (j, i) (mem_of_alGet_eq_some hj) (k, i)
    (mem_of_alGet_eq_some hk) rfl

/-! ### Simulation of one operation -/

theorem mGet_eq_of_idx {K : Type u} {V : Type v} [DecidableEq K] {st : GState K}
    {m : NewMap V} {k : K} {i : Nat} (hidx : alGet (mapIndices st m) k = some i) :
    mGet st m k = (m.values.get? i).bind id := by
  unfold mGet
  rw [hidx, Option.some_bind]

theorem mGet_eq_none_of_idx {K : Type u} {V : Type v} [DecidableEq K] {st : GState K}
    {m : NewMap V} {k : K} (hidx : alGet (mapIndices st m) k = none) :
    mGet st m k = none := by
  unfold mGet
  rw [hidx]
  rfl

theorem mGet_set_values {K : Type u} {V : Type v} [DecidableEq K] {st : GState K}
    (m : NewMap V) (w : List (Option V)) (c : Nat) (k : K) :
    mGet st { keysId := m.keysId, values := w, count := c } k
      = (alGet (mapIndices st m) k).bind (fun i => (w.get? i).bind id) := rfl

theorem mInsert_sim {K : Type u} {V : Type v} [DecidableEq K] {st : GState K}
    {m : NewMap V} (k : K) (v : V) (hInv : MapInv st m) :
    MapInv (mInsert st m k v).1 (mInsert st m k v).2.1 ∧
    (mInsert st m k v).2.2 = mGet st m k ∧
    ∀ j, mGet (mInsert st m k v).1 (mInsert st m k v).2.1 j
      = if j = k then some v else mGet st m j := by
  cases hidx : alGet (mapIndices st m) k with
  | some i =>
    have hilt : i < m.values.length := alGet_lt_length hInv hidx
    have hpost : ∀ c j,
        mGet st { keysId := m.keysId, values := m.values.set i (some v), count := c } j
          = if j = k then some v else mGet st m j := by
      intro c j
      rw [mGet_set_values]
      by_cases hj : j = k
      · subst hj
        rw [if_pos rfl, hidx, Option.some_bind, List.get?_set_eq_of_lt _ hilt]
        rfl
      · rw [if_neg hj]
        cases hji : alGet (mapIndices st m) j with
        | none => rw [mGet_eq_none_of_idx hji]; rfl
        | some i2 =>
          have hne : i ≠ i2 := fun hc =>
            hj (alGet_inj_of_mapIndices hInv hji (hc ▸ hidx))
          rw [Option.some_bind, List.get?_set_ne _ _ hne, mGet_eq_of_idx hji]
    have hInv2 : ∀ c, MapInv st
        { keysId := m.keysId, values := m.values.set i (some v), count := c } :=
      fun c => ⟨hInv.1, hInv.2.1, by
        simp only [List.length_set]
        exact hInv.2.2⟩
    cases hslot : (m.values.get? i).bind id with
    | some old =>
      have hrun : mInsert st m k v
          = (st, { m with values := m.values.set i (some v) }, some old) := by
        simp only [mInsert, hidx, hslot]
      rw [hrun]
      exact ⟨hInv2 _, by rw [mGet_eq_of_idx hidx, hslot], fun j => hpost _ j⟩
    | none =>
      have hrun : mInsert st m k v
          = (st, { m with values := m.values.set i (some v), count := m.count + 1 },
             none) := by
        simp only [mInsert, hidx, hslot]
      rw [hrun]
      exact ⟨hInv2 _, by rw [mGet_eq_of_idx hidx, hslot], fun j => hpost _ j⟩
  | none =>
    have hspec := @keysInsert_spec K _ st m.keysId k hInv.1 hInv.2.1 hidx
    have hrun : mInsert st m k v
        = ((keysInsert st m.keysId k).1,
           { keysId := (keysInsert st m.keysId k).2,
             values := m.values ++ [some v], count := m.count + 1 }, none) := by
      simp only [mInsert, hidx]
    rw [hrun]
    have hnewIdx : mapIndices (keysInsert st m.keysId k).1
        { keysId := (keysInsert st m.keysId k).2,
          values := m.values ++ [some v], count := m.count + 1 }
        = alInsert (mapIndices st m) k (posBound (mapIndices st m)) := hspec.2.2.2.1
    refine ⟨⟨hspec.1, hspec.2.1, ?_⟩, by rw [mGet_eq_none_of_idx hidx], fun j => ?_⟩
    · simp only [List.length_append, List.length_singleton]
      rw [hnewIdx, posBound_alInsert (le_refl _), hInv.2.2]
    · have hGet2 : mGet (keysInsert st m.keysId k).1
          { keysId := (keysInsert st m.keysId k).2,
            values := m.values ++ [some v], count := m.count + 1 } j
          = (alGet (alInsert (mapIndices st m) k (posBound (mapIndices st m))) j).bind
              (fun i => ((m.values ++ [some v]).get? i).bind id) := by
        unfold mGet
        rw [hnewIdx]
      rw [hGet2]
      by_cases hj : j = k
      · subst hj
        rw [if_pos rfl, alGet_alInsert_self, Option.some_bind,
          show posBound (mapIndices st m) = m.values.length from hInv.2.2.symm,
          List.get?_concat_length]
        rfl
      · rw [if_neg hj, alGet_alInsert_ne _ _ _ _ hj]
        cases hji : alGet (mapIndices st m) j with
        | none => rw [mGet_eq_none_of_idx hji]; rfl
        | some i2 =>
          have hi2 : i2 < m.values.length := alGet_lt_length hInv hji
          rw [Option.some_bind, List.get?_append hi2, mGet_eq_of_idx hji]

theorem mRemove_sim {K : Type u} {V : Type v} [DecidableEq K] {st : GState K}
    {m : NewMap V} (k : K) (hInv : MapInv st m) :
    MapInv st (mRemove st m k).1 ∧
    (mRemove st m k).2 = mGet st m k ∧
    ∀ j, mGet st (mRemove st m k).1 j = if j = k then none else mGet st m j := by
  cases hidx : alGet (mapIndices st m) k with
  | none =>
    have hrun : mRemove st m k = (m, none) := by
      simp only [mRemove, hidx]
    rw [hrun]
    refine ⟨hInv, by rw [mGet_eq_none_of_idx hidx], fun j => ?_⟩
    by_cases hj : j = k
    · subst hj
      rw [if_pos rfl, mGet_eq_none_of_idx hidx]
    · rw [if_neg hj]
  | some i =>
    have hilt : i < m.values.length := alGet_lt_length hInv hidx
    cases hslot : (m.values.get? i).bind id with
    | none =>
      have hrun : mRemove st m k = (m, none) := by
        simp only [mRemove, hidx, hslot]
      rw [hrun]
      refine ⟨hInv, by rw [mGet_eq_of_idx hidx, hslot], fun j => ?_⟩
      by_cases hj : j = k
      · subst hj
        rw [if_pos rfl, mGet_eq_of_idx hidx, hslot]
      · rw [if_neg hj]
    | some old =>
      have hrun : mRemove st m k
          = ({ m with values := m.values.set i none, count := m.count - 1 },
             some old) := by
        simp only [mRemove, hidx, hslot]
      rw [hrun]
      refine ⟨⟨hInv.1, hInv.2.1, by
        simp only [List.length_set]
        exact hInv.2.2⟩, by rw [mGet_eq_of_idx hidx, hslot], fun j => ?_⟩
      rw [mGet_set_values]
      by_cases hj : j = k
      · subst hj
        rw [if_pos rfl, hidx, Option.some_bind, List.get?_set_eq_of_lt _ hilt]
        rfl
      · rw [if_neg hj]
        cases hji : alGet (mapIndices st m) j with
        | none => rw [mGet_eq_none_of_idx hji]; rfl
        | some i2 =>
          have hne : i ≠ i2 := fun hc =>
            hj (alGet_inj_of_mapIndices hInv hji (hc ▸ hidx))
          rw [Option.some_bind, List.get?_set_ne _ _ hne, mGet_eq_of_idx hji]

/-! ### Bulk construction abstraction -/

theorem refFromPairs_append_single {K : Type u} {V : Type v} [DecidableEq K]
    (pairs : List (K × V)) (q : K × V) (k : K) :
    refFromPairs (pairs ++ [q]) k
      = if k = q.1 then some q.2 else refFromPairs pairs k := by
  unfold refFromPairs
  rw [List.foldl_append]
  rfl

theorem initGet {K : Type u} {V : Type v} [DecidableEq K] (pairs : List (K × V))
    (k : K) :
    (alGet (buildIndices (pairs.map Prod.fst)) k).bind
      (fun i => ((pairs.map (fun p => some p.2)).get? i).bind id)
    = refFromPairs pairs k := by
  induction pairs using List.reverseRecOn with
  | nil =>
    rw [show refFromPairs ([] : List (K × V)) k = none from rfl]
    rfl
  | append_singleton pairs q ih =>
    rw [refFromPairs_append_single,
      show (pairs ++ [q]).map Prod.fst = pairs.map Prod.fst ++ [q.1] from
        List.map_append _ _ _,
      buildIndices_append_single,
      show (pairs ++ [q]).map (fun p => some p.2)
          = pairs.map (fun p => some p.2) ++ [some q.2] from List.map_append _ _ _,
      show (pairs.map Prod.fst).length = pairs.length from List.length_map _ _]
    by_cases hk : k = q.1
    · subst hk
      rw [alGet_alInsert_self, Option.some_bind,
        show pairs.length = (pairs.map (fun p => some p.2)).length from
          (List.length_map _ _).symm,
        List.get?_concat_length, if_pos rfl]
      rfl
    · rw [if_neg hk, alGet_alInsert_ne _ _ _ _ hk, ← ih]
      cases hgi : alGet (buildIndices (pairs.map Prod.fst)) k with
      | none => rfl
      | some i =>
        have hi : i < pairs.length := by
          have := vals_buildIndices_lt (pairs.map Prod.fst) _
            (mem_of_alGet_eq_some hgi)
          simpa using this
        rw [Option.some_bind, Option.some_bind,
          List.get?_append (by simpa using hi)]

/-- The initial state built by `from_iterator` on a fresh process: the
invariant holds and the map abstracts to the reference bulk construction. -/
theorem mFromIter_init {K : Type u} {V : Type v} [DecidableEq K]
    (pairs : List (K × V)) :
    MapInv (mFromIter (⟨[], []⟩ : GState K) pairs).1 (mFromIter ⟨[], []⟩ pairs).2 ∧
    ∀ k, mGet (mFromIter (⟨[], []⟩ : GState K) pairs).1 (mFromIter ⟨[], []⟩ pairs).2 k
      = refFromPairs pairs k := by
  have hmiss : alGet (⟨[], []⟩ : GState K).store (pairs.map Prod.fst) = none := rfl
  have hrun : mFromIter (⟨[], []⟩ : GState K) pairs
      = (⟨[⟨buildIndices (pairs.map Prod.fst), []⟩],
          alInsert [] (pairs.map Prod.fst) 0⟩,
         { keysId := 0, values := pairs.map (fun p => some p.2),
           count := (pairs.map (fun p => some p.2)).length }) := by
    simp only [mFromIter]
    rw [storeGet_fresh hmiss]
    rfl
  rw [hrun]
  have hidx : mapIndices
      (⟨[⟨buildIndices (pairs.map Prod.fst), []⟩],
        alInsert [] (pairs.map Prod.fst) 0⟩ : GState K)
      ({ keysId := 0, values := pairs.map (fun p => some p.2),
         count := (pairs.map (fun p => some p.2)).length } : NewMap V)
      = buildIndices (pairs.map Prod.fst) := rfl
  refine ⟨⟨?_, by simp, ?_⟩, fun k => ?_⟩
  · intro x hx
    rw [List.mem_singleton.mp hx]
    exact ⟨UK_buildIndices _, PosInj_buildIndices _, by simp [UK],
      fun e he => by simp at he⟩
  · rw [hidx, posBound_buildIndices]
    simp
  · rw [show mGet
        (⟨[⟨buildIndices (pairs.map Prod.fst), []⟩],
          alInsert [] (pairs.map Prod.fst) 0⟩ : GState K)
        ({ keysId := 0, values := pairs.map (fun p => some p.2),
           count := (pairs.map (fun p => some p.2)).length } : NewMap V) k
        = (alGet (buildIndices (pairs.map Prod.fst)) k).bind
            (fun i => ((pairs.map (fun p => some p.2)).get? i).bind id) from rfl]
    exact initGet pairs k

/-! ### Run-level simulation -/

theorem run_sim {K : Type u} {V : Type v} [DecidableEq K] :
    ∀ (ops : List (Op K V)) (st : GState K) (m : NewMap V) (r : K → Option V),
    MapInv st m → (∀ k, mGet st m k = r k) →
    (runNew st m ops).2.2 = (runRef r ops).2 ∧
    MapInv (runNew st m ops).1 (runNew st m ops).2.1 ∧
    (∀ k, mGet (runNew st m ops).1 (runNew st m ops).2.1 k = (runRef r ops).1 k) := by
  intro ops
  induction ops with
  | nil =>
    intro st m r hInv habs
    exact ⟨rfl, hInv, habs⟩
  | cons op ops ih =>
    intro st m r hInv habs
    cases op with
    | get k =>
      have hrest := ih st m r hInv habs
      exact ⟨by
        simp only [runNew, runRef]
        rw [hrest.1, habs k], hrest.2.1, hrest.2.2⟩
    | insert k v =>
      have hstep := mInsert_sim k v hInv
      have habs2 : ∀ j, mGet (mInsert st m k v).1 (mInsert st m k v).2.1 j
          = (refInsertFun r k v).1 j := by
        intro j
        rw [hstep.2.2 j]
        simp only [refInsertFun]
        by_cases hj : j = k
        · subst hj; rw [if_pos rfl, if_pos rfl]
        · rw [if_neg hj, if_neg hj, habs j]
      have hrest := ih _ _ _ hstep.1 habs2
      refine ⟨?_, hrest.2.1, hrest.2.2⟩
      simp only [runNew, runRef]
      rw [hrest.1, hstep.2.1, habs k]
      rfl
    | remove k =>
      have hstep := mRemove_sim k hInv
      have habs2 : ∀ j, mGet st (mRemove st m k).1 j = (refRemoveFun r k).1 j := by
        intro j
        rw [hstep.2.2 j]
        simp only [refRemoveFun]
        by_cases hj : j = k
        · subst hj; rw [if_pos rfl, if_pos rfl]
        · rw [if_neg hj, if_neg hj, habs j]
      have hrest := ih _ _ _ hstep.1 habs2
      refine ⟨?_, hrest.2.1, hrest.2.2⟩
      simp only [runNew, runRef]
      rw [hrest.1, hstep.2.1, habs k]
      rfl

/-! ### Contents lemma -/

theorem mContents_iff {K : Type u} {V : Type v} [DecidableEq K] {st : GState K}
    {m : NewMap V} (hInv : MapInv st m) (k : K) (v : V) :
    (k, v) ∈ mContents st m ↔ mGet st m k = some v := by
  unfold mContents
  rw [List.mem_filterMap]
  constructor
  · rintro ⟨p, hp, hf⟩
    rcases Option.map_eq_some'.mp hf with ⟨v', hv', heq⟩
    have hk : p.1 = k := congrArg Prod.fst heq
    have hv : v' = v := congrArg Prod.snd heq
    subst hv
    have hmem : (k, p.2) ∈ mapIndices st m := by
      rw [← hk]
      exact hp
    have hget : alGet (mapIndices st m) k = some p.2 :=
      alGet_of_mem (UK_mapIndices hInv) hmem
    rw [mGet_eq_of_idx hget]
    exact hv'
  · intro hget
    cases hidx : alGet (mapIndices st m) k with
    | none => rw [mGet_eq_none_of_idx hidx] at hget; exact absurd hget (by simp)
    | some i =>
      rw [mGet_eq_of_idx hidx] at hget
      exact ⟨(k, i), mem_of_alGet_eq_some hidx, by rw [show ((k, i) : K × Nat).2 = i from rfl, hget]; rfl⟩

/-! ### Reachability invariant -/

theorem reach_mapInv {K : Type u} {V : Type v} [DecidableEq K] {st : GState K}
    {m : NewMap V} (h : Reach st m) : MapInv st m := by
  induction h with
  | new =>
    refine ⟨?_, ?_, ?_⟩
    · intro x hx
      rw [List.mem_singleton.mp hx]
      show NodeWF _ (⟨[], []⟩ : KeysInner K)
      exact ⟨by simp [UK], fun p hp => absurd hp (List.not_mem_nil p), by simp [UK],
        fun e he => absurd he (List.not_mem_nil e)⟩
    · show (0 : Nat) < 1
      omega
    · rfl
  | fromIter pairs => exact (mFromIter_init pairs).1
  | insertStep k v _ ih => exact (mInsert_sim k v ih).1
  | removeStep k _ ih => exact (mRemove_sim k ih).1

/-! ### Extension cache behaviour without well-formedness -/

theorem keysInsert_caches {K : Type u} [DecidableEq K] {st : GState K} {sid : Nat}
    (k : K) (hsid : sid < st.heap.length) :
    alGet (insOfNode (keysInsert st sid k).1 sid) k = some (keysInsert st sid k).2 ∧
    idxOfNode (keysInsert st sid k).1 sid = idxOfNode st sid := by
  cases hc : alGet (insOfNode st sid) k with
  | some nid =>
    rw [keysInsert_cached hc]
    exact ⟨hc, rfl⟩
  | none =>
    have hrun : keysInsert st sid k =
        (⟨(st.heap.set sid
            ⟨idxOfNode st sid, alInsert (insOfNode st sid) k st.heap.length⟩)
            ++ [⟨alOfList (idxOfNode st sid
                  ++ [(k, posBound (idxOfNode st sid))]), []⟩],
           st.store⟩, st.heap.length) := by
      unfold keysInsert
      rw [hc]
    rw [hrun]
    have hgetsid : (((st.heap.set sid
        ⟨idxOfNode st sid, alInsert (insOfNode st sid) k st.heap.length⟩)
        ++ [(⟨alOfList (idxOfNode st sid
              ++ [(k, posBound (idxOfNode st sid))]), []⟩ : KeysInner K)]).getD sid
          ⟨[], []⟩)
        = ⟨idxOfNode st sid, alInsert (insOfNode st sid) k st.heap.length⟩ := by
      rw [getD_append_lt (by rw [List.length_set]; exact hsid)]
      exact getD_set_self hsid
    constructor
    · simp only [insOfNode, idxOfNode] at hgetsid ⊢
      rw [hgetsid]
      exact alGet_alInsert_self _ _ _
    · simp only [insOfNode, idxOfNode] at hgetsid ⊢
      rw [hgetsid]

/-! ### Fresh index for duplicate-free key sequences -/

theorem buildIndices_eq_of_nodup {K : Type u} [DecidableEq K] {keys : List K}
    (h : keys.Nodup) :
    buildIndices keys = keys.enum.map (fun p => (p.2, p.1)) := by
  apply alOfList_eq_self
  unfold UK
  rw [List.map_map,
    show (Prod.fst ∘ fun p : Nat × K => (p.2, p.1)) = Prod.snd from rfl,
    List.enum_map_snd]
  exact h

theorem alGet_buildIndices_nodup {K : Type u} [DecidableEq K] {keys : List K}
    (h : keys.Nodup) (i : Nat) (hi : i < keys.length) :
    alGet (buildIndices keys) (keys.get ⟨i, hi⟩) = some i := by
  rw [buildIndices_eq_of_nodup h]
  apply alGet_of_mem
  · unfold UK
    rw [List.map_map,
      show (Prod.fst ∘ fun p : Nat × K => (p.2, p.1)) = Prod.snd from rfl,
      List.enum_map_snd]
    exact h
  · apply List.mem_map.mpr
    refine ⟨(i, keys.get ⟨i, hi⟩), ?_, rfl⟩
    have hlen : i < keys.enum.length := by rw [List.enum_length]; exact hi
    have hval : keys.enum.get ⟨i, hlen⟩ = (i, keys.get ⟨i, hi⟩) := by
      rw [List.get_enum]
      rfl
    rw [← hval]
    exact List.get_mem _ _ _

/-! ### Density along extension chains -/

theorem extendChain_dense {K : Type u} [DecidableEq K] :
    ∀ (ks : List K) (st : GState K) (sid : Nat),
    HeapWF st → sid < st.heap.length → Dense (idxOfNode st sid) →
    freshChain st sid ks →
    Dense (idxOfNode (extendChain st sid ks).1 (extendChain st sid ks).2) := by
  intro ks
  induction ks with
  | nil =>
    intro st sid _ _ hD _
    exact hD
  | cons k ks ih =>
    intro st sid hWF hsid hD hfc
    have habs : alGet (idxOfNode st sid) k = none := hfc.1
    have hspec := keysInsert_spec hWF hsid habs
    have hD2 : Dense (idxOfNode (keysInsert st sid k).1 (keysInsert st sid k).2) := by
      rw [hspec.2.2.2.1]
      exact dense_extend hD habs
    rw [show extendChain st sid (k :: ks)
        = extendChain (keysInsert st sid k).1 (keysInsert st sid k).2 ks from rfl]
    exact ih _ _ hspec.1 hspec.2.1 hD2 hfc.2

/-! ### Claim theorems -/

/-- Claim C1: for any sequence of operations drawn from get, insert and
remove applied in the same order to a reference map and to a NewMap, both
starting from the same initial key/value pairs, the two agree on every
get result and on every insert/remove return value at every step, and
their final (key, value) contents, compared as unordered sets, are
equal. -/
theorem C1_operation_equivalence {K : Type u} {V : Type v} [DecidableEq K]
    (pairs : List (K × V)) (ops : List (Op K V)) :
    (runNew (mFromIter (⟨[], []⟩ : GState K) pairs).1
        (mFromIter ⟨[], []⟩ pairs).2 ops).2.2
      = (runRef (refFromPairs pairs) ops).2 ∧
    ∀ k v, (k, v) ∈ mContents
        (runNew (mFromIter (⟨[], []⟩ : GState K) pairs).1
          (mFromIter ⟨[], []⟩ pairs).2 ops).1
        (runNew (mFromIter (⟨[], []⟩ : GState K) pairs).1
          (mFromIter ⟨[], []⟩ pairs).2 ops).2.1
      ↔ (runRef (refFromPairs pairs) ops).1 k = some v := by
  have hinit := mFromIter_init (K := K) (V := V) pairs
  have hrun := run_sim ops _ _ _ hinit.1 hinit.2
  exact ⟨hrun.1, fun k v => by rw [mContents_iff hrun.2.1 k v, hrun.2.2 k]⟩

/-- Claim C2: insert with a known position overwrites that slot and
returns the previous slot content (None means count increments, Some
leaves count unchanged); insert of a new key swaps the index handle for
the extension containing the key, pushes the value at the new highest
position (the old array length), increments count and returns None. -/
theorem C2_insert_contract {K : Type u} {V : Type v} [DecidableEq K]
    {st : GState K} {m : NewMap V} (k : K) (v : V) (hInv : MapInv st m) :
    (∀ i, alGet (mapIndices st m) k = some i →
      (mInsert st m k v).1 = st ∧
      (mInsert st m k v).2.1.keysId = m.keysId ∧
      (mInsert st m k v).2.1.values = m.values.set i (some v) ∧
      (mInsert st m k v).2.2 = (m.values.get? i).bind id ∧
      ((m.values.get? i).bind id = none →
        (mInsert st m k v).2.1.count = m.count + 1) ∧
      (∀ old, (m.values.get? i).bind id = some old →
        (mInsert st m k v).2.1.count = m.count)) ∧
    (alGet (mapIndices st m) k = none →
      (mInsert st m k v).2.2 = none ∧
      (mInsert st m k v).2.1.count = m.count + 1 ∧
      (mInsert st m k v).2.1.values = m.values ++ [some v] ∧
      mapIndices (mInsert st m k v).1 (mInsert st m k v).2.1
        = alInsert (mapIndices st m) k (posBound (mapIndices st m)) ∧
      alGet (mapIndices (mInsert st m k v).1 (mInsert st m k v).2.1) k
        = some m.values.length) := by
  constructor
  · intro i hidx
    cases hslot : (m.values.get? i).bind id with
    | some old =>
      have hrun : mInsert st m k v
          = (st, { m with values := m.values.set i (some v) }, some old) := by
        simp only [mInsert, hidx, hslot]
      rw [hrun]
      exact ⟨rfl, rfl, rfl, rfl, fun hc => absurd hc (by simp), fun o _ => rfl⟩
    | none =>
      have hrun : mInsert st m k v
          = (st, { m with values := m.values.set i (some v), count := m.count + 1 },
             none) := by
        simp only [mInsert, hidx, hslot]
      rw [hrun]
      exact ⟨rfl, rfl, rfl, rfl, fun _ => rfl, fun o hc => absurd hc (by simp)⟩
  · intro hidx
    have hspec := @keysInsert_spec K _ st m.keysId k hInv.1 hInv.2.1 hidx
    have hrun : mInsert st m k v
        = ((keysInsert st m.keysId k).1,
           { keysId := (keysInsert st m.keysId k).2,
             values := m.values ++ [some v], count := m.count + 1 }, none) := by
      simp only [mInsert, hidx]
    rw [hrun]
    refine ⟨rfl, rfl, rfl, hspec.2.2.2.1, ?_⟩
    rw [show mapIndices (keysInsert st m.keysId k).1
        ({ keysId := (keysInsert st m.keysId k).2,
           values := m.values ++ [some v], count := m.count + 1 } : NewMap V)
        = idxOfNode (keysInsert st m.keysId k).1 (keysInsert st m.keysId k).2 from rfl,
      hspec.2.2.2.1, alGet_alInsert_self, hInv.2.2]
    rfl

/-- Witness for C2 at a concrete reachable state. -/
theorem C2_insert_contract_witness :
    MapInv (mFromIter (⟨[], []⟩ : GState Nat) [((0 : Nat), (5 : Nat))]).1
      (mFromIter (⟨[], []⟩ : GState Nat) [((0 : Nat), (5 : Nat))]).2 ∧
    alGet (mapIndices (mFromIter (⟨[], []⟩ : GState Nat) [((0 : Nat), (5 : Nat))]).1
      (mFromIter (⟨[], []⟩ : GState Nat) [((0 : Nat), (5 : Nat))]).2) 1 = none ∧
    (mInsert (mFromIter (⟨[], []⟩ : GState Nat) [((0 : Nat), (5 : Nat))]).1
      (mFromIter (⟨[], []⟩ : GState Nat) [((0 : Nat), (5 : Nat))]).2 1 9).2.1.count
      = (mFromIter (⟨[], []⟩ : GState Nat) [((0 : Nat), (5 : Nat))]).2.count + 1 :=
  ⟨by decide, by decide,
    ((C2_insert_contract 1 9 (by decide)).2 (by decide)).2.1⟩

/-- Claim C3 (code bug): at the failing input `[(0, 1), (0, 2)]`,
`from_iterator` builds a map whose lookup of key 0 yields the last
occurrence's value and whose iterated contents hold the single pair
(0, 2) — yet `count` (= `len()`) is 2, the raw number of pairs, not the
number of distinct keys (1) the claim and spec require. -/
theorem C3_fromIter_count_bug :
    (mFromIter (⟨[], []⟩ : GState Nat) [((0 : Nat), (1 : Nat)), (0, 2)]).2.count = 2 ∧
    mGet (mFromIter (⟨[], []⟩ : GState Nat) [((0 : Nat), (1 : Nat)), (0, 2)]).1
      (mFromIter (⟨[], []⟩ : GState Nat) [((0 : Nat), (1 : Nat)), (0, 2)]).2 0
      = some 2 ∧
    mContents (mFromIter (⟨[], []⟩ : GState Nat) [((0 : Nat), (1 : Nat)), (0, 2)]).1
      (mFromIter (⟨[], []⟩ : GState Nat) [((0 : Nat), (1 : Nat)), (0, 2)]).2
      = [(0, 2)] := by
  decide

/-- Counterexample to claim C4: for the index built from the single key 0
(where 0 has position 0), inserting the already-present key 0 does not
return the index itself: it returns a freshly allocated index (different
identity) in which key 0 has been reassigned to position 1. -/
theorem C4_counterexample :
    alGet (idxOfNode (storeGet (⟨[], []⟩ : GState Nat) [0]).1
      (storeGet (⟨[], []⟩ : GState Nat) [0]).2) 0 = some 0 ∧
    (keysInsert (storeGet (⟨[], []⟩ : GState Nat) [0]).1
        (storeGet (⟨[], []⟩ : GState Nat) [0]).2 0).2
      ≠ (storeGet (⟨[], []⟩ : GState Nat) [0]).2 ∧
    alGet (idxOfNode
        (keysInsert (storeGet (⟨[], []⟩ : GState Nat) [0]).1
          (storeGet (⟨[], []⟩ : GState Nat) [0]).2 0).1
        (keysInsert (storeGet (⟨[], []⟩ : GState Nat) [0]).1
          (storeGet (⟨[], []⟩ : GState Nat) [0]).2 0).2) 0 = some 1 := by
  decide

/-- Claim C4 as amended: for a key k already present in the index at
position i and with no cached extension for k, `insert(k)` returns a
freshly allocated index object — not the index itself — in which k is
reassigned to the next position after the current maximum (which differs
from i) while every other key keeps its position. -/
theorem C4_amended {K : Type u} [DecidableEq K] {st : GState K} {sid : Nat} {k : K}
    {i : Nat} (hsid : sid < st.heap.length) (hUK : UK (idxOfNode st sid))
    (hpresent : alGet (idxOfNode st sid) k = some i)
    (hnocache : alGet (insOfNode st sid) k = none) :
    (keysInsert st sid k).2 = st.heap.length ∧
    (keysInsert st sid k).2 ≠ sid ∧
    idxOfNode (keysInsert st sid k).1 (keysInsert st sid k).2
      = alInsert (idxOfNode st sid) k (posBound (idxOfNode st sid)) ∧
    alGet (idxOfNode (keysInsert st sid k).1 (keysInsert st sid k).2) k
      = some (posBound (idxOfNode st sid)) ∧
    i < posBound (idxOfNode st sid) ∧
    (∀ j, j ≠ k →
      alGet (idxOfNode (keysInsert st sid k).1 (keysInsert st sid k).2) j
        = alGet (idxOfNode st sid) j) := by
  have hrun : keysInsert st sid k =
      (⟨(st.heap.set sid
          ⟨idxOfNode st sid, alInsert (insOfNode st sid) k st.heap.length⟩)
          ++ [⟨alOfList (idxOfNode st sid
                ++ [(k, posBound (idxOfNode st sid))]), []⟩],
         st.store⟩, st.heap.length) := by
    unfold keysInsert
    rw [hnocache]
  have hgetnew : (((st.heap.set sid
      ⟨idxOfNode st sid, alInsert (insOfNode st sid) k st.heap.length⟩)
      ++ [(⟨alOfList (idxOfNode st sid
            ++ [(k, posBound (idxOfNode st sid))]), []⟩ : KeysInner K)]).getD
        st.heap.length ⟨[], []⟩)
      = ⟨alOfList (idxOfNode st sid ++ [(k, posBound (idxOfNode st sid))]), []⟩ := by
    have hbase := getD_append_length
      (st.heap.set sid
        ⟨idxOfNode st sid, alInsert (insOfNode st sid) k st.heap.length⟩)
      (⟨alOfList (idxOfNode st sid
          ++ [(k, posBound (idxOfNode st sid))]), []⟩ : KeysInner K)
      (⟨[], []⟩ : KeysInner K)
    rwa [List.length_set] at hbase
  have hnewIdx : alOfList (idxOfNode st sid ++ [(k, posBound (idxOfNode st sid))])
      = alInsert (idxOfNode st sid) k (posBound (idxOfNode st sid)) := by
    rw [alOfList_append_single]
    show alInsert (alOfList (idxOfNode st sid)) k (posBound (idxOfNode st sid))
      = alInsert (idxOfNode st sid) k (posBound (idxOfNode st sid))
    rw [alOfList_eq_self hUK]
  have hidxnew : idxOfNode (keysInsert st sid k).1 (keysInsert st sid k).2
      = alInsert (idxOfNode st sid) k (posBound (idxOfNode st sid)) := by
    rw [hrun]
    simp only [idxOfNode] at hgetnew hnewIdx ⊢
    rw [hgetnew]
    exact hnewIdx
  refine ⟨by rw [hrun], by rw [hrun]; simp only; omega, hidxnew, ?_, ?_, ?_⟩
  · rw [hidxnew, alGet_alInsert_self]
  · exact alGet_lt_posBound hpresent
  · intro j hj
    rw [hidxnew, alGet_alInsert_ne _ _ _ _ hj]

/-- Witness for the amended C4 at a concrete index. -/
theorem C4_amended_witness :
    (storeGet (⟨[], []⟩ : GState Nat) [0]).2
        < (storeGet (⟨[], []⟩ : GState Nat) [0]).1.heap.length ∧
    UK (idxOfNode (storeGet (⟨[], []⟩ : GState Nat) [0]).1
        (storeGet (⟨[], []⟩ : GState Nat) [0]).2) ∧
    (keysInsert (storeGet (⟨[], []⟩ : GState Nat) [0]).1
        (storeGet (⟨[], []⟩ : GState Nat) [0]).2 0).2
      ≠ (storeGet (⟨[], []⟩ : GState Nat) [0]).2 :=
  ⟨by decide, by decide,
    (C4_amended (i := 0) (by decide) (by decide) (by decide) (by decide)).2.1⟩

/-- Claim C5: an index built fresh from a sequence of distinct keys, and
every index obtained from it by a chain of one-key extensions (each key
new at its step), has positions exactly 0..m with no gaps, m being its
number of keys. -/
theorem C5_dense_positions {K : Type u} [DecidableEq K] (keys : List K)
    (ks : List K) (hnd : keys.Nodup)
    (hfc : freshChain (storeGet (⟨[], []⟩ : GState K) keys).1
      (storeGet (⟨[], []⟩ : GState K) keys).2 ks) :
    Dense (idxOfNode
      (extendChain (storeGet (⟨[], []⟩ : GState K) keys).1
        (storeGet (⟨[], []⟩ : GState K) keys).2 ks).1
      (extendChain (storeGet (⟨[], []⟩ : GState K) keys).1
        (storeGet (⟨[], []⟩ : GState K) keys).2 ks).2) := by
  have hWF0 : HeapWF (⟨[], []⟩ : GState K) := fun x hx => absurd hx (List.not_mem_nil x)
  have hmiss : alGet (⟨[], []⟩ : GState K).store keys = none := rfl
  have hspec := storeGet_fresh_spec hWF0 hmiss
  have hD : Dense (idxOfNode (storeGet (⟨[], []⟩ : GState K) keys).1
      (storeGet (⟨[], []⟩ : GState K) keys).2) := by
    rw [hspec.2.2.1]
    exact dense_buildIndices hnd
  exact extendChain_dense ks _ _ hspec.1 hspec.2.1 hD hfc

/-- Witness for C5: a two-key build extended twice. -/
theorem C5_dense_positions_witness :
    ([(0 : Nat), 1]).Nodup ∧
    freshChain (storeGet (⟨[], []⟩ : GState Nat) [0, 1]).1
      (storeGet (⟨[], []⟩ : GState Nat) [0, 1]).2 [2, 3] ∧
    Dense (idxOfNode
      (extendChain (storeGet (⟨[], []⟩ : GState Nat) [0, 1]).1
        (storeGet (⟨[], []⟩ : GState Nat) [0, 1]).2 [2, 3]).1
      (extendChain (storeGet (⟨[], []⟩ : GState Nat) [0, 1]).1
        (storeGet (⟨[], []⟩ : GState Nat) [0, 1]).2 [2, 3]).2) :=
  ⟨by decide, by decide, C5_dense_positions [0, 1] [2, 3] (by decide) (by decide)⟩

/-- Claim C6: removing a key with known position p clears slot p
(decrementing count exactly when the slot held a value), leaves the value
array's length and the index handle unchanged, and a subsequent insert of
the same key reuses the identical position p — get_index is the same
before and after the round trip. -/
theorem C6_remove_reinsert {K : Type u} {V : Type v} [DecidableEq K]
    {st : GState K} {m : NewMap V} (k : K) (v : V) {p : Nat} (hInv : MapInv st m)
    (hpos : alGet (mapIndices st m) k = some p) :
    (mRemove st m k).1.keysId = m.keysId ∧
    (mRemove st m k).1.values.length = m.values.length ∧
    ((mRemove st m k).1.values.get? p).bind id = none ∧
    ((m.values.get? p).bind id = none →
      (mRemove st m k).1.count = m.count ∧ (mRemove st m k).2 = none) ∧
    (∀ old, (m.values.get? p).bind id = some old →
      (mRemove st m k).1.count = m.count - 1 ∧ (mRemove st m k).2 = some old) ∧
    (mInsert st (mRemove st m k).1 k v).2.1.keysId = m.keysId ∧
    alGet (mapIndices st (mInsert st (mRemove st m k).1 k v).2.1) k = some p ∧
    ((mInsert st (mRemove st m k).1 k v).2.1.values.get? p).bind id = some v := by
  have hplt : p < m.values.length := alGet_lt_length hInv hpos
  cases hslot : (m.values.get? p).bind id with
  | none =>
    have hrun : mRemove st m k = (m, none) := by
      simp only [mRemove, hpos, hslot]
    have hrun2 : mInsert st m k v
        = (st, { m with values := m.values.set p (some v), count := m.count + 1 },
           none) := by
      simp only [mInsert, hpos, hslot]
    rw [hrun]
    refine ⟨rfl, rfl, hslot, fun _ => ⟨rfl, rfl⟩, fun old hc => absurd hc (by simp),
      ?_, ?_, ?_⟩
    · show (mInsert st m k v).2.1.keysId = m.keysId
      rw [hrun2]
    · show alGet (mapIndices st (mInsert st m k v).2.1) k = some p
      rw [hrun2]
      exact hpos
    · show ((mInsert st m k v).2.1.values.get? p).bind id = some v
      rw [hrun2]
      show ((m.values.set p (some v)).get? p).bind id = some v
      rw [List.get?_set_eq_of_lt _ hplt]
      rfl
  | some old =>
    have hrun : mRemove st m k
        = ({ m with values := m.values.set p none, count := m.count - 1 },
           some old) := by
      simp only [mRemove, hpos, hslot]
    have hslot2 : (((m.values.set p none).get? p).bind id) = none := by
      rw [List.get?_set_eq_of_lt _ hplt]
      rfl
    have hpos2 : alGet (mapIndices st
        ({ m with values := m.values.set p none, count := m.count - 1 })) k
        = some p := hpos
    have hrun2 : mInsert st
        { m with values := m.values.set p none, count := m.count - 1 } k v
        = (st, { keysId := m.keysId,
                 values := (m.values.set p none).set p (some v),
                 count := (m.count - 1) + 1 }, none) := by
      simp only [mInsert, hpos2, hslot2]
    rw [hrun]
    refine ⟨rfl, List.length_set _ _ _, hslot2, fun hc => absurd hc (by simp),
      fun o ho => ⟨rfl, ho⟩, ?_, ?_, ?_⟩
    · show (mInsert st
          { m with values := m.values.set p none, count := m.count - 1 } k v).2.1.keysId
        = m.keysId
      rw [hrun2]
    · show alGet (mapIndices st (mInsert st
          { m with values := m.values.set p none, count := m.count - 1 } k v).2.1) k
        = some p
      rw [hrun2]
      exact hpos
    · show ((mInsert st
          { m with values := m.values.set p none, count := m.count - 1 } k v).2.1.values.get?
          p).bind id = some v
      rw [hrun2]
      show (((m.values.set p none).set p (some v)).get? p).bind id = some v
      rw [List.get?_set_eq_of_lt _ (by rw [List.length_set]; exact hplt)]
      rfl

/-- Witness for C6 at a concrete map. -/
theorem C6_remove_reinsert_witness :
    MapInv (mFromIter (⟨[], []⟩ : GState Nat) [((0 : Nat), (5 : Nat))]).1
      (mFromIter (⟨[], []⟩ : GState Nat) [((0 : Nat), (5 : Nat))]).2 ∧
    alGet (mapIndices (mFromIter (⟨[], []⟩ : GState Nat) [((0 : Nat), (5 : Nat))]).1
      (mFromIter (⟨[], []⟩ : GState Nat) [((0 : Nat), (5 : Nat))]).2) 0 = some 0 ∧
    alGet (mapIndices (mFromIter (⟨[], []⟩ : GState Nat) [((0 : Nat), (5 : Nat))]).1
      (mInsert (mFromIter (⟨[], []⟩ : GState Nat) [((0 : Nat), (5 : Nat))]).1
        (mRemove (mFromIter (⟨[], []⟩ : GState Nat) [((0 : Nat), (5 : Nat))]).1
          (mFromIter (⟨[], []⟩ : GState Nat) [((0 : Nat), (5 : Nat))]).2 0).1
        0 7).2.1) 0 = some 0 :=
  ⟨by decide, by decide,
    (C6_remove_reinsert (p := 0) 0 7 (by decide) (by decide)).2.2.2.2.2.2.1⟩

/-- A map whose index was built from the key sequence `[0, 0, 1]` (key 0
duplicated), so its index maps 0 to position 1 and 1 to position 2. -/
def c7MapA : NewMap Nat :=
  (mFromIter (⟨[], []⟩ : GState Nat) [(0, 10), (0, 10), (1, 10)]).2

/-- A second map whose index was built from `[1, 0, 1]`: identical
key-to-position content, but a physically distinct index object. -/
def c7MapB : NewMap Nat :=
  (mFromIter (mFromIter (⟨[], []⟩ : GState Nat) [(0, 10), (0, 10), (1, 10)]).1
    [(1, 10), (0, 10), (1, 10)]).2

/-- The global state after both constructions. -/
def c7State : GState Nat :=
  (mFromIter (mFromIter (⟨[], []⟩ : GState Nat) [(0, 10), (0, 10), (1, 10)]).1
    [(1, 10), (0, 10), (1, 10)]).1

/-- Counterexample to claim C7: the two maps hold index objects with
identical key-to-position content but distinct identity; after each
inserts the same new key 2, the two maps hold index objects that are not
the same object — a fresh extension is created per base object, not per
content. -/
theorem C7_counterexample :
    sameContent (mapIndices c7State c7MapA) (mapIndices c7State c7MapB) ∧
    c7MapA.keysId ≠ c7MapB.keysId ∧
    (mInsert c7State c7MapA 2 5).2.1.keysId
      ≠ (mInsert (mInsert c7State c7MapA 2 5).1 c7MapB 2 5).2.1.keysId := by
  decide

/-- Claim C7 as amended: two maps that hold identity-equal index objects
and each insert the same new key end up holding identity-equal index
objects, because the first insert caches the extension on the shared base
and the second insert receives that cached object; the second insert
allocates nothing (the global state is unchanged). -/
theorem C7_amended {K : Type u} {V : Type v} [DecidableEq K] {st : GState K}
    {m1 m2 : NewMap V} (k : K) (v1 v2 : V) (hid : m1.keysId = m2.keysId)
    (hlt : m1.keysId < st.heap.length)
    (habs : alGet (mapIndices st m1) k = none) :
    (mInsert (mInsert st m1 k v1).1 m2 k v2).2.1.keysId
      = (mInsert st m1 k v1).2.1.keysId ∧
    (mInsert (mInsert st m1 k v1).1 m2 k v2).1 = (mInsert st m1 k v1).1 := by
  have hrun1 : mInsert st m1 k v1
      = ((keysInsert st m1.keysId k).1,
         { keysId := (keysInsert st m1.keysId k).2,
           values := m1.values ++ [some v1], count := m1.count + 1 }, none) := by
    simp only [mInsert, habs]
  have hcaches := @keysInsert_caches K _ st m1.keysId k hlt
  have habs2 : alGet (mapIndices (keysInsert st m1.keysId k).1 m2) k = none := by
    show alGet (idxOfNode (keysInsert st m1.keysId k).1 m2.keysId) k = none
    rw [← hid, hcaches.2]
    exact habs
  have hrun2 : mInsert (keysInsert st m1.keysId k).1 m2 k v2
      = ((keysInsert (keysInsert st m1.keysId k).1 m2.keysId k).1,
         { keysId := (keysInsert (keysInsert st m1.keysId k).1 m2.keysId k).2,
           values := m2.values ++ [some v2], count := m2.count + 1 }, none) := by
    simp only [mInsert, habs2]
  have hhit : keysInsert (keysInsert st m1.keysId k).1 m2.keysId k
      = ((keysInsert st m1.keysId k).1, (keysInsert st m1.keysId k).2) := by
    apply keysInsert_cached
    rw [← hid]
    exact hcaches.1
  rw [hrun1]
  constructor
  · show (mInsert (keysInsert st m1.keysId k).1 m2 k v2).2.1.keysId
      = (keysInsert st m1.keysId k).2
    rw [hrun2, hhit]
  · show (mInsert (keysInsert st m1.keysId k).1 m2 k v2).1
      = (keysInsert st m1.keysId k).1
    rw [hrun2, hhit]

/-- Witness for the amended C7: two maps sharing the index for `[0]` both
insert key 7 and end up with the same index object. -/
theorem C7_amended_witness :
    (mFromIter (⟨[], []⟩ : GState Nat) [((0 : Nat), (10 : Nat))]).2.keysId
      = (mFromIter (mFromIter (⟨[], []⟩ : GState Nat) [((0 : Nat), (10 : Nat))]).1
          [((0 : Nat), (11 : Nat))]).2.keysId ∧
    (mInsert
      (mInsert (mFromIter (mFromIter (⟨[], []⟩ : GState Nat)
          [((0 : Nat), (10 : Nat))]).1 [((0 : Nat), (11 : Nat))]).1
        (mFromIter (⟨[], []⟩ : GState Nat) [((0 : Nat), (10 : Nat))]).2 7 5).1
      (mFromIter (mFromIter (⟨[], []⟩ : GState Nat) [((0 : Nat), (10 : Nat))]).1
          [((0 : Nat), (11 : Nat))]).2 7 6).2.1.keysId
      = (mInsert (mFromIter (mFromIter (⟨[], []⟩ : GState Nat)
          [((0 : Nat), (10 : Nat))]).1 [((0 : Nat), (11 : Nat))]).1
        (mFromIter (⟨[], []⟩ : GState Nat) [((0 : Nat), (10 : Nat))]).2 7 5).2.1.keysId :=
  ⟨by decide,
    (C7_amended 7 5 6 (by decide) (by decide) (by decide)).1⟩

/-- Claim C8: the key store's get returns the cached index for an equal
key sequence (same identity, state unchanged); otherwise it builds a
fresh index assigning positions 0..n to the keys in the sequence's order,
caches it under that exact sequence, and returns it — so two successive
gets with equal key sequences return identity-equal indices. -/
theorem C8_storeGet_contract {K : Type u} [DecidableEq K] (st : GState K)
    (keys : List K) :
    (∀ nid, alGet st.store keys = some nid → storeGet st keys = (st, nid)) ∧
    (alGet st.store keys = none →
      (storeGet st keys).2 = st.heap.length ∧
      idxOfNode (storeGet st keys).1 (storeGet st keys).2 = buildIndices keys ∧
      (storeGet st keys).1.store = alInsert st.store keys st.heap.length ∧
      (keys.Nodup → ∀ i, (h : i < keys.length) →
        alGet (idxOfNode (storeGet st keys).1 (storeGet st keys).2)
          (keys.get ⟨i, h⟩) = some i)) ∧
    (storeGet (storeGet st keys).1 keys).2 = (storeGet st keys).2 := by
  refine ⟨fun nid h => storeGet_cached h, fun h => ?_, ?_⟩
  · rw [storeGet_fresh h]
    have hget : ((st.heap ++ [(⟨buildIndices keys, []⟩ : KeysInner K)]).getD
        st.heap.length ⟨[], []⟩) = ⟨buildIndices keys, []⟩ := getD_append_length _ _ _
    have hidx : idxOfNode
        (⟨st.heap ++ [⟨buildIndices keys, []⟩],
          alInsert st.store keys st.heap.length⟩ : GState K) st.heap.length
        = buildIndices keys := by
      simp only [idxOfNode] at hget ⊢
      rw [hget]
    exact ⟨rfl, hidx, rfl,
      fun hnd i hi => by rw [hidx]; exact alGet_buildIndices_nodup hnd i hi⟩
  · cases h : alGet st.store keys with
    | some nid =>
      rw [storeGet_cached h]
      show (storeGet st keys).2 = nid
      rw [storeGet_cached h]
    | none =>
      rw [storeGet_fresh h]
      have hcached : alGet
          (⟨st.heap ++ [⟨buildIndices keys, []⟩],
            alInsert st.store keys st.heap.length⟩ : GState K).store keys
          = some st.heap.length := alGet_alInsert_self _ _ _
      show (storeGet (⟨st.heap ++ [⟨buildIndices keys, []⟩],
          alInsert st.store keys st.heap.length⟩ : GState K) keys).2 = st.heap.length
      rw [storeGet_cached hcached]

/-- Witness for C8 at the empty store and key sequence `[0, 1]`. -/
theorem C8_storeGet_contract_witness :
    alGet (⟨[], []⟩ : GState Nat).store [0, 1] = none ∧
    (storeGet (storeGet (⟨[], []⟩ : GState Nat) [0, 1]).1 [0, 1]).2
      = (storeGet (⟨[], []⟩ : GState Nat) [0, 1]).2 ∧
    idxOfNode (storeGet (⟨[], []⟩ : GState Nat) [0, 1]).1
      (storeGet (⟨[], []⟩ : GState Nat) [0, 1]).2 = buildIndices [0, 1] :=
  ⟨by decide, (C8_storeGet_contract ⟨[], []⟩ [0, 1]).2.2,
    ((C8_storeGet_contract ⟨[], []⟩ [0, 1]).2.1 (by decide)).2.1⟩

/-- Claim C9: in every map state reachable through the public operations,
every position reachable through the map's current index handle is
strictly below the value array's length, so the direct slot indexing done
by get, insert, remove and iteration is always in bounds. -/
theorem C9_positions_in_bounds {K : Type u} {V : Type v} [DecidableEq K]
    {st : GState K} {m : NewMap V} (hReach : Reach st m) :
    ∀ k i, alGet (mapIndices st m) k = some i → i < m.values.length :=
  fun _ _ h => alGet_lt_length (reach_mapInv hReach) h

/-- Witness for C9 at a reachable one-entry map. -/
theorem C9_positions_in_bounds_witness :
    Reach (mFromIter (⟨[], []⟩ : GState Nat) [((0 : Nat), (5 : Nat))]).1
      (mFromIter (⟨[], []⟩ : GState Nat) [((0 : Nat), (5 : Nat))]).2 ∧
    (0 : Nat)
      < (mFromIter (⟨[], []⟩ : GState Nat) [((0 : Nat), (5 : Nat))]).2.values.length :=
  ⟨Reach.fromIter _,
    C9_positions_in_bounds (Reach.fromIter _) 0 0 (by decide)⟩

/-- Claim C10: extending an index never changes existing keys' positions:
after inserting a new key k, every previously present key j keeps its
position in the new index, and get(j) returns the same value as before the
insert. -/
theorem C10_extension_preserves {K : Type u} {V : Type v} [DecidableEq K]
    {st : GState K} {m : NewMap V} (k j : K) (v : V) {i : Nat} (hInv : MapInv st m)
    (habs : alGet (mapIndices st m) k = none)
    (hj : alGet (mapIndices st m) j = some i) :
    alGet (mapIndices (mInsert st m k v).1 (mInsert st m k v).2.1) j = some i ∧
    mGet (mInsert st m k v).1 (mInsert st m k v).2.1 j = mGet st m j := by
  have hjk : j ≠ k := fun hc => by
    rw [hc, habs] at hj
    exact absurd hj (by simp)
  have hspec := @keysInsert_spec K _ st m.keysId k hInv.1 hInv.2.1 habs
  have hstep := mInsert_sim k v hInv
  constructor
  · have hrun : mInsert st m k v
        = ((keysInsert st m.keysId k).1,
           { keysId := (keysInsert st m.keysId k).2,
             values := m.values ++ [some v], count := m.count + 1 }, none) := by
      simp only [mInsert, habs]
    rw [hrun]
    show alGet (idxOfNode (keysInsert st m.keysId k).1
      (keysInsert st m.keysId k).2) j = some i
    rw [hspec.2.2.2.1, alGet_alInsert_ne _ _ _ _ hjk]
    exact hj
  · rw [hstep.2.2 j, if_neg hjk]

/-- Witness for C10: a one-entry map extended by a new key keeps key 0's
position and value. -/
theorem C10_extension_preserves_witness :
    MapInv (mFromIter (⟨[], []⟩ : GState Nat) [((0 : Nat), (5 : Nat))]).1
      (mFromIter (⟨[], []⟩ : GState Nat) [((0 : Nat), (5 : Nat))]).2 ∧
    mGet (mInsert (mFromIter (⟨[], []⟩ : GState Nat) [((0 : Nat), (5 : Nat))]).1
        (mFromIter (⟨[], []⟩ : GState Nat) [((0 : Nat), (5 : Nat))]).2 1 9).1
      (mInsert (mFromIter (⟨[], []⟩ : GState Nat) [((0 : Nat), (5 : Nat))]).1
        (mFromIter (⟨[], []⟩ : GState Nat) [((0 : Nat), (5 : Nat))]).2 1 9).2.1 0
      = mGet (mFromIter (⟨[], []⟩ : GState Nat) [((0 : Nat), (5 : Nat))]).1
          (mFromIter (⟨[], []⟩ : GState Nat) [((0 : Nat), (5 : Nat))]).2 0 :=
  ⟨by decide,
    (C10_extension_preserves (i := 0) 1 0 9 (by decide) (by decide) (by decide)).2⟩

end VecMap
